import Mathlib

/-!
Gobuster-projet (`mainV1.5.go`): a verification development

Shallow embedding of the pure parts of the scanner (target normalisation,
request-URL construction, wordlist loading, worker-count coercion, result
rendering), of the sequential body of one worker, and of the worker pool as an
interleaving transition system.

Conventions.
* Go `string` values are modelled by Lean `String`, that is, as text in valid
  UTF-8; the `strings` package functions used by the program are defined below
  on the list of code points. The patterns the program searches for (`http://`,
  `https://`, `:`, `.`, `/`) are ASCII, for which matching on code points and
  matching on bytes agree.
* Go `error` values are modelled by their message (`String`), a fallible
  `(T, error)` result by `Except String T`.
* Go `int` is the 64-bit two's-complement integer; it is modelled by `Int`,
  with an explicit wrap (`wrapInt`) on the tally increment `statusCount[status]++`.
* The network (`http.Get`) and the colour library (`fatih/color`) are not part
  of the program: they appear as parameters.
-/

namespace Gobuster

/-! ## The `strings` package functions the program calls -/

/-- Go `strings.HasPrefix(s, prefix)`. -/
def hasPrefix (s pre : String) : Bool :=
  pre.data.isPrefixOf s.data

/-- Go `strings.HasSuffix(s, suffix)`. -/
def hasSuffix (s suf : String) : Bool :=
  suf.data.isSuffixOf s.data

/-- Substring search on character lists: `sub` occurs in `l` at some offset. -/
def infixOf (sub : List Char) : List Char → Bool
  | [] => sub.isEmpty
  | c :: l => sub.isPrefixOf (c :: l) || infixOf sub l

/-- Go `strings.Contains(s, substr)`. -/
def contains (s sub : String) : Bool :=
  infixOf sub.data s.data

/-- Go `strings.TrimPrefix(s, prefix)`: `s` without the leading `prefix`
when `s` starts with it, `s` unchanged otherwise. -/
def trimPrefix (s pre : String) : String :=
  if hasPrefix s pre then ⟨s.data.drop pre.data.length⟩ else s

/-- Go `strings.TrimSuffix(s, suffix)`: `s` without the trailing `suffix`
when `s` ends with it, `s` unchanged otherwise. -/
def trimSuffix (s suf : String) : String :=
  if hasSuffix s suf then ⟨s.data.take (s.data.length - suf.data.length)⟩ else s

/-! ## Target normalisation -/

/-- Source `formatTargetURL` (lines 183-192). -/
def formatTargetURL (t : String) : Except String String :=
  if hasPrefix t "http://" || hasPrefix t "https://" then
    Except.ok t
  else if contains t ":" || contains t "." then
    Except.ok ("http://" ++ t)
  else
    Except.error "cible invalide (pas d'URL ni de port détecté)"

/-! ## Request URL and probe -/

/-- The request URL built on the first line of source `checkPath` (line 196):
`strings.TrimSuffix(baseURL, "/") + "/" + strings.TrimPrefix(path, "/")`. -/
def requestURL (baseURL path : String) : String :=
  trimSuffix baseURL "/" ++ "/" ++ trimPrefix path "/"

/-- Source `checkPath` (lines 195-203). The parameter `httpGet` stands for
`http.Get`, reduced to what the program reads of its result: the response's
status code, or the error. -/
def checkPath (httpGet : String → Except String Int) (baseURL path : String) :
    Except String Int :=
  let url := requestURL baseURL path
  match httpGet url with
  | Except.error err => Except.error err
  | Except.ok statusCode => Except.ok statusCode

/-! ## Wordlist loading -/

/-- Go `unicode.IsSpace`: the Latin-1 spaces `\t \n \v \f \r`, space,
U+0085, U+00A0, and the other code points with the `White_Space` property. -/
def isSpace (c : Char) : Bool :=
  let n := c.toNat
  (0x09 ≤ n && n ≤ 0x0D) || n == 0x20 || n == 0x85 || n == 0xA0 ||
  n == 0x1680 || (0x2000 ≤ n && n ≤ 0x200A) || n == 0x2028 || n == 0x2029 ||
  n == 0x202F || n == 0x205F || n == 0x3000

/-- Go `strings.TrimSpace(s)`: `s` without its leading and trailing white space. -/
def trimSpace (s : String) : String :=
  ⟨((s.data.dropWhile isSpace).reverse.dropWhile isSpace).reverse⟩

/-- The wordlist loop of source `main` (lines 82-89): `lines` are the values
`scanner.Text()` takes on the successive iterations, `paths` the slice built so far. -/
def scanLoop : List String → List String → List String
  | [], paths => paths
  | text :: rest, paths =>
    let line := trimSpace text
    if line != "" then scanLoop rest (paths ++ [line]) else scanLoop rest paths

/-- Wordlist loading in source `main` (lines 82-92): the loop starts from the
nil slice; afterwards a scanner error (`scanner.Err()`) is fatal. -/
def loadWordlist (lines : List String) (scanErr : Option String) :
    Except String (List String) :=
  let paths := scanLoop lines []
  match scanErr with
  | some err => Except.error ("Erreur lors de la lecture du fichier dictionnaire : " ++ err)
  | none => Except.ok paths

/-! ## Worker count -/

/-- Source `main`, lines 70-72: `if workers < 1 { workers = 1 }`. -/
def coerceWorkers (workers : Int) : Int :=
  if workers < 1 then 1 else workers

/-- The worker start loop of source `main` (lines 117-145),
`for i := 0; i < workers; i++ { wg.Add(1); go func() {...}() }`, reduced to the
number of goroutines it starts. `i < workers` bounds `i + 1` by the
largest `int`, so the increment cannot overflow. -/
def spawnLoop (workers i : Int) (started : Nat) : Nat :=
  if i < workers then spawnLoop workers (i + 1) (started + 1) else started
termination_by (workers - i).toNat
decreasing_by omega

/-- Number of workers the pool starts for the flag value `w`. -/
def workersStarted (w : Int) : Nat :=
  spawnLoop (coerceWorkers w) 0 0

/-! ## The status tally -/

/-- Go `int` arithmetic: the result of an addition, wrapped to 64-bit two's complement. -/
def wrapInt (x : Int) : Int :=
  (x + 2 ^ 63) % 2 ^ 64 - 2 ^ 63

/-- A Go `map[int]int`, as an association list holding each key at most once
by construction (`GoMap.set`). -/
abbrev GoMap := List (Int × Int)

/-- Go `m[k]` as an expression: the stored value, or the zero value `0`. -/
def GoMap.get : GoMap → Int → Int
  | [], _ => 0
  | (k', v') :: m, k => if k' = k then v' else GoMap.get m k

/-- Go `m[k] = v`. -/
def GoMap.set : GoMap → Int → Int → GoMap
  | [], k, v => [(k, v)]
  | (k', v') :: m, k, v => if k' = k then (k, v) :: m else (k', v') :: GoMap.set m k v

/-- Go `m[k]++`. -/
def GoMap.incr (m : GoMap) (k : Int) : GoMap :=
  GoMap.set m k (wrapInt (GoMap.get m k + 1))

/-- Sum of all the counts held in the map. -/
def GoMap.total (m : GoMap) : Int :=
  (m.map Prod.snd).sum

/-! ## Rendering -/

/-- The `fatih/color` attributes the program uses. -/
inductive ColorAttr where
  | FgGreen
  | FgHiYellow
  | FgRed
  | FgBlue
  deriving DecidableEq, Repr

/-- Source `colorStatus` (lines 206-218). `paint a s` stands for
`color.New(a).Sprint(s)`; the format `"/%s\t%d"` is expanded. -/
def colorStatus (paint : ColorAttr → String → String) (p : String) (status : Int) : String :=
  if status = 200 then paint ColorAttr.FgGreen ("/" ++ p ++ "\t" ++ toString status)
  else if status = 403 then paint ColorAttr.FgHiYellow ("/" ++ p ++ "\t" ++ toString status)
  else if status = 404 then paint ColorAttr.FgRed ("/" ++ p ++ "\t" ++ toString status)
  else paint ColorAttr.FgBlue ("/" ++ p ++ "\t" ++ toString status)

/-! ## One worker, sequentially -/

/-- What one worker has done so far: the shared tally and the strings it has
sent on the `results` channel, oldest first. -/
structure WorkerState where
  statusCount : GoMap
  results : List String
  deriving DecidableEq, Repr

/-- The state before any candidate is processed: `statusCount = make(map[int]int)`,
nothing sent. -/
def WorkerState.init : WorkerState :=
  { statusCount := [], results := [] }

/-- The body of the worker loop (source lines 122-142) for the candidate `p`,
given the outcome `r` of the call `checkPath(finalURL, p)` on line 122. -/
def workerBody (paint : ColorAttr → String → String) (quiet : Bool)
    (st : WorkerState) (p : String) (r : Except String Int) : WorkerState :=
  match r with
  | Except.error _ => st
  | Except.ok status =>
    let st1 := { st with statusCount := GoMap.incr st.statusCount status }
    if quiet then
      if status = 200 then
        { st1 with results := st1.results ++ [colorStatus paint p status] }
      else st1
    else
      { st1 with results := st1.results ++ [colorStatus paint p status] }

/-- The worker loop `for p := range pathChan` (source lines 121-143) over the
candidates received, each paired with the outcome of its probe. -/
def workerLoop (paint : ColorAttr → String → String) (quiet : Bool) :
    List (String × Except String Int) → WorkerState → WorkerState
  | [], st => st
  | (p, r) :: rest, st => workerLoop paint quiet rest (workerBody paint quiet st p r)

/-- Whether a probe outcome carries a status code. -/
def isStatus : Except String Int → Bool
  | Except.ok _ => true
  | Except.error _ => false

/-- Whether a probe outcome is the status code 200. -/
def isStatus200 : Except String Int → Bool
  | Except.ok status => status == 200
  | Except.error _ => false

/-! ## Path joining as the specification words it -/

/-- The joining rule in the specification's words: the base URL with its
trailing `/` characters removed, one `/`, the candidate with its leading `/`
characters removed. -/
def specJoin (baseURL candidate : String) : String :=
  ⟨(baseURL.data.reverse.dropWhile (fun c => c == '/')).reverse⟩ ++ "/" ++
    ⟨candidate.data.dropWhile (fun c => c == '/')⟩

/-! ## The worker pool as a transition system

Source `main`, lines 109-162. The goroutines are `main` (feeds `paths` into the
unbuffered channel `pathChan`, closes it, waits on the `WaitGroup`, closes
`results`), the `workers` workers (lines 119-144) and the printer (lines
148-152), which is always ready to receive from `results`. A send on an
unbuffered channel and the matching receive are one step. -/

/-- Where `main` stands: in the feed loop with the candidates still to send,
after `close(pathChan)` (blocked in `wg.Wait()`), or after `close(results)`. -/
inductive MainPC where
  | feeding (rest : List String)
  | waiting
  | finished
  deriving DecidableEq, Repr

/-- Where a worker stands: blocked on `range pathChan`; holding `p`, about to
call `checkPath`; holding a status, about to update the tally; blocked on
`results <- r`; or returned. -/
inductive WorkerPC where
  | receiving
  | probing (p : String)
  | tallying (p : String) (status : Int)
  | sending (r : String)
  | done
  deriving DecidableEq, Repr

/-- Whether the worker has returned. -/
def WorkerPC.isDone : WorkerPC → Bool
  | WorkerPC.done => true
  | _ => false

/-- State of the pool. `probes` logs the candidates passed to `checkPath`, in
the order of the calls; `printed` the lines written by the printer. -/
structure PoolState where
  mainPC : MainPC
  workers : List WorkerPC
  probes : List String
  statusCount : GoMap
  printed : List String
  deriving DecidableEq, Repr

/-- The pool once the `W` workers and the printer are started and `main`
enters the feed loop over `paths`. -/
def PoolState.init (W : Nat) (paths : List String) : PoolState :=
  { mainPC := MainPC.feeding paths
    workers := List.replicate W WorkerPC.receiving
    probes := []
    statusCount := []
    printed := [] }

/-- The steps of the pool. `probe i outcome` is worker `i` calling
`checkPath(finalURL, p)` and getting `outcome` from the network. -/
inductive Action where
  | feed (i : Nat)
  | closePaths
  | probe (i : Nat) (outcome : Except String Int)
  | tally (i : Nat)
  | deliver (i : Nat)
  | exit (i : Nat)
  | finish

/-- Where a worker goes after the tally update (source lines 135-142). -/
def afterTally (paint : ColorAttr → String → String) (quiet : Bool)
    (p : String) (status : Int) : WorkerPC :=
  if quiet then
    if status = 200 then WorkerPC.sending (colorStatus paint p status)
    else WorkerPC.receiving
  else WorkerPC.sending (colorStatus paint p status)

/-- Where a worker goes after `checkPath` returns (source lines 122-126). -/
def afterProbe (p : String) : Except String Int → WorkerPC
  | Except.error _ => WorkerPC.receiving
  | Except.ok status => WorkerPC.tallying p status

/-- One step of the pool; `none` when the action is not enabled. -/
def step (paint : ColorAttr → String → String) (quiet : Bool) (s : PoolState) :
    Action → Option PoolState
  | Action.feed i =>
    match s.mainPC, s.workers[i]? with
    | MainPC.feeding (p :: rest), some WorkerPC.receiving =>
      some { s with mainPC := MainPC.feeding rest
                    workers := s.workers.set i (WorkerPC.probing p) }
    | _, _ => none
  | Action.closePaths =>
    match s.mainPC with
    | MainPC.feeding [] => some { s with mainPC := MainPC.waiting }
    | _ => none
  | Action.probe i outcome =>
    match s.workers[i]? with
    | some (WorkerPC.probing p) =>
      some { s with probes := s.probes ++ [p]
                    workers := s.workers.set i (afterProbe p outcome) }
    | _ => none
  | Action.tally i =>
    match s.workers[i]? with
    | some (WorkerPC.tallying p status) =>
      some { s with statusCount := GoMap.incr s.statusCount status
                    workers := s.workers.set i (afterTally paint quiet p status) }
    | _ => none
  | Action.deliver i =>
    match s.workers[i]? with
    | some (WorkerPC.sending r) =>
      some { s with printed := s.printed ++ [r]
                    workers := s.workers.set i WorkerPC.receiving }
    | _ => none
  | Action.exit i =>
    match s.mainPC, s.workers[i]? with
    | MainPC.feeding _, _ => none
    | _, some WorkerPC.receiving => some { s with workers := s.workers.set i WorkerPC.done }
    | _, _ => none
  | Action.finish =>
    match s.mainPC with
    | MainPC.waiting =>
      if s.workers.all WorkerPC.isDone then some { s with mainPC := MainPC.finished } else none
    | _ => none

/-- Run a schedule from a state; `none` when some action of it is not enabled. -/
def run (paint : ColorAttr → String → String) (quiet : Bool) :
    List Action → PoolState → Option PoolState
  | [], s => some s
  | a :: sched, s =>
    match step paint quiet s a with
    | some s1 => run paint quiet sched s1
    | none => none

/-- The candidates received by a worker and not yet passed to `checkPath`. -/
def inflight (ws : List WorkerPC) : List String :=
  ws.filterMap (fun w => match w with
    | WorkerPC.probing p => some p
    | _ => none)

/-- The candidates `main` has still to send. -/
def MainPC.remaining : MainPC → List String
  | MainPC.feeding rest => rest
  | _ => []

/-- Number of steps a worker can still take before it next blocks on `pathChan`, plus one
for its return. -/
def WorkerPC.weight : WorkerPC → Nat
  | WorkerPC.done => 0
  | WorkerPC.receiving => 1
  | WorkerPC.sending _ => 2
  | WorkerPC.tallying _ _ => 3
  | WorkerPC.probing _ => 4

/-- Weight of the position of `main`: four steps per candidate still to send
(hand-over, probe, tally, delivery), then the two closes. -/
def MainPC.weight : MainPC → Nat
  | MainPC.feeding rest => 4 * rest.length + 2
  | MainPC.waiting => 1
  | MainPC.finished => 0

/-- Bound on the number of steps left. -/
def PoolState.fuel (s : PoolState) : Nat :=
  s.mainPC.weight + (s.workers.map WorkerPC.weight).sum

/-- Invariant of the pool for `W` workers and the wordlist `paths`: the
candidates probed, held by a worker or still to send are, together, the
wordlist; there are `W` workers; no worker returns while `main` feeds; all have
returned once `main` has closed `results`. -/
structure PoolInv (W : Nat) (paths : List String) (s : PoolState) : Prop where
  perm : (s.probes ++ inflight s.workers ++ s.mainPC.remaining).Perm paths
  size : s.workers.length = W
  alive : ∀ rest, s.mainPC = MainPC.feeding rest → ∀ w ∈ s.workers, w ≠ WorkerPC.done
  joined : s.mainPC = MainPC.finished → ∀ w ∈ s.workers, w = WorkerPC.done

/-! ## Facts about the string functions -/

theorem hasPrefix_iff (s pre : String) : hasPrefix s pre = true ↔ pre.data <+: s.data := by
  unfold hasPrefix
  exact List.isPrefixOf_iff_prefix

theorem hasSuffix_iff (s suf : String) : hasSuffix s suf = true ↔ suf.data <:+ s.data := by
  unfold hasSuffix
  exact List.isSuffixOf_iff_suffix

theorem infixOf_singleton (c : Char) (l : List Char) : infixOf [c] l = true ↔ c ∈ l := by
  induction l with
  | nil => simp [infixOf]
  | cons d l ih =>
    simp only [infixOf, Bool.or_eq_true, ih, List.mem_cons]
    constructor
    · rintro (h | h)
      · left
        have := List.isPrefixOf_iff_prefix.mp h
        obtain ⟨t, ht⟩ := this
        simp at ht
        exact ht.1
      · right; exact h
    · rintro (h | h)
      · left
        subst h
        simp [List.isPrefixOf]
      · right; exact h

theorem contains_colon (t : String) : contains t ":" = true ↔ ':' ∈ t.data :=
  infixOf_singleton ':' t.data

theorem contains_dot (t : String) : contains t "." = true ↔ '.' ∈ t.data :=
  infixOf_singleton '.' t.data

/-! ## Target normalisation: theorems -/

/-- C4: `formatTargetURL t` returns an error exactly when `t` begins with neither
`http://` nor `https://` and contains neither `:` nor `.`; `"plainword"` is
such a target. -/
theorem formatTargetURL_error_iff (t : String) :
    ((∃ err, formatTargetURL t = Except.error err) ↔
      (¬ "http://".data <+: t.data ∧ ¬ "https://".data <+: t.data ∧
        ':' ∉ t.data ∧ '.' ∉ t.data)) ∧
    (∃ err, formatTargetURL "plainword" = Except.error err) := by
  refine ⟨?_, ⟨_, rfl⟩⟩
  rw [← hasPrefix_iff, ← hasPrefix_iff, ← contains_colon, ← contains_dot]
  unfold formatTargetURL
  cases h1 : hasPrefix t "http://" <;> cases h2 : hasPrefix t "https://" <;>
    cases h3 : contains t ":" <;> cases h4 : contains t "." <;> simp

/-- C5: a target that begins with neither `http://` nor `https://` but contains
`:` or `.` is accepted and returned with `http://` prepended, the target itself
unchanged after it. -/
theorem formatTargetURL_prepends (t : String)
    (hhttp : ¬ "http://".data <+: t.data) (hhttps : ¬ "https://".data <+: t.data)
    (hmark : ':' ∈ t.data ∨ '.' ∈ t.data) :
    formatTargetURL t = Except.ok ("http://" ++ t) ∧
      ("http://" ++ t).data = "http://".data ++ t.data := by
  rw [← hasPrefix_iff] at hhttp hhttps
  rw [← contains_colon, ← contains_dot] at hmark
  refine ⟨?_, String.data_append _ _⟩
  unfold formatTargetURL
  rcases hmark with h | h <;> simp [hhttp, hhttps, h]

/-- Witness of C5 at `"host.com"`. -/
theorem formatTargetURL_prepends_witness :
    formatTargetURL "host.com" = Except.ok ("http://" ++ "host.com") ∧
      ("http://" ++ "host.com").data = "http://".data ++ "host.com".data :=
  formatTargetURL_prepends "host.com" (by decide) (by decide) (Or.inr (by decide))

/-- C6: a target that already begins with `http://` or `https://` is accepted
and returned as it is. -/
theorem formatTargetURL_keeps_scheme (t : String)
    (hscheme : "http://".data <+: t.data ∨ "https://".data <+: t.data) :
    formatTargetURL t = Except.ok t := by
  rw [← hasPrefix_iff, ← hasPrefix_iff] at hscheme
  unfold formatTargetURL
  rcases hscheme with h | h <;> simp [h]

/-- Witness of C6 at `"https://x"`. -/
theorem formatTargetURL_keeps_scheme_witness :
    formatTargetURL "https://x" = Except.ok "https://x" :=
  formatTargetURL_keeps_scheme "https://x" (Or.inr (by decide))

/-! ## Worker count: theorems -/

theorem spawnLoop_eq (workers : Int) (n : Nat) :
    ∀ (i : Int) (started : Nat), (workers - i).toNat = n →
      spawnLoop workers i started = started + n := by
  induction n with
  | zero =>
    intro i started h
    unfold spawnLoop
    have : ¬ i < workers := by omega
    simp [this]
  | succ n ih =>
    intro i started h
    unfold spawnLoop
    have hlt : i < workers := by omega
    simp only [hlt, if_true]
    rw [ih (i + 1) (started + 1) (by omega)]
    omega

/-- C10: for every integer `w` given as worker count, the pool starts one
worker when `w < 1` and `w` workers otherwise; it always starts at least one. -/
theorem workersStarted_coerced (w : Int) :
    (workersStarted w : Int) = (if w < 1 then 1 else w) ∧ 1 ≤ workersStarted w := by
  unfold workersStarted
  rw [spawnLoop_eq (coerceWorkers w) _ 0 0 rfl]
  unfold coerceWorkers
  split <;> constructor <;> simp <;> omega

/-! ## Path joining: theorems -/

theorem trimSuffix_slash_data (s : String) (h : hasSuffix s "/" = true) :
    s.data = (trimSuffix s "/").data ++ ['/'] := by
  obtain ⟨l, hl⟩ := (hasSuffix_iff s "/").mp h
  have hd : "/".data = ['/'] := rfl
  rw [hd] at hl
  unfold trimSuffix
  rw [if_pos h, hd, ← hl]
  simp

theorem trimPrefix_slash_data (s : String) (h : hasPrefix s "/" = true) :
    s.data = '/' :: (trimPrefix s "/").data := by
  obtain ⟨l, hl⟩ := (hasPrefix_iff s "/").mp h
  have hd : "/".data = ['/'] := rfl
  rw [hd] at hl
  unfold trimPrefix
  rw [if_pos h, hd, ← hl]
  simp

/-- C7, counterexample: for the base `http://h//` and the candidate `admin`
the program requests `http://h//admin`, with a double slash at the junction,
and not `http://h/admin`, the URL with every trailing slash of the base removed. -/
theorem requestURL_double_slash :
    requestURL "http://h//" "admin" = "http://h//admin" ∧
    specJoin "http://h//" "admin" = "http://h/admin" ∧
    requestURL "http://h//" "admin" ≠ specJoin "http://h//" "admin" := by
  refine ⟨rfl, rfl, ?_⟩
  decide

/-- C7, amended: the request URL is `b ++ "/" ++ p`, where `b` is the base URL
without one trailing `/` (when it has one) and `p` the candidate without one
leading `/` (when it has one). When the base does not end in `//`, `b` does not
end in `/`; when the candidate does not begin with `//`, `p` does not begin
with `/`. Both `("http://h/", "/admin")` and `("http://h", "admin")` give
`http://h/admin`. -/
theorem requestURL_join (baseURL candidate : String) :
    (∃ b p : String, requestURL baseURL candidate = b ++ "/" ++ p ∧
      (baseURL.data = b.data ++ ['/'] ∨ (baseURL = b ∧ ¬ ['/'] <:+ baseURL.data)) ∧
      (candidate.data = '/' :: p.data ∨ (candidate = p ∧ ¬ ['/'] <+: candidate.data)) ∧
      (¬ ['/', '/'] <:+ baseURL.data → ¬ ['/'] <:+ b.data) ∧
      (¬ ['/', '/'] <+: candidate.data → ¬ ['/'] <+: p.data)) ∧
    requestURL "http://h/" "/admin" = "http://h/admin" ∧
    requestURL "http://h" "admin" = "http://h/admin" := by
  refine ⟨⟨trimSuffix baseURL "/", trimPrefix candidate "/", rfl, ?_, ?_, ?_, ?_⟩, rfl, rfl⟩
  · cases h : hasSuffix baseURL "/"
    · right
      refine ⟨by simp [trimSuffix, h], ?_⟩
      intro hs
      have := (hasSuffix_iff baseURL "/").mpr hs
      simp [h] at this
    · left
      exact trimSuffix_slash_data baseURL h
  · cases h : hasPrefix candidate "/"
    · right
      refine ⟨by simp [trimPrefix, h], ?_⟩
      intro hs
      have := (hasPrefix_iff candidate "/").mpr hs
      simp [h] at this
    · left
      exact trimPrefix_slash_data candidate h
  · intro hnot hb
    cases h : hasSuffix baseURL "/"
    · have hb2 : trimSuffix baseURL "/" = baseURL := by simp [trimSuffix, h]
      rw [hb2] at hb
      have := (hasSuffix_iff baseURL "/").mpr hb
      simp [h] at this
    · apply hnot
      obtain ⟨l, hl⟩ := hb
      refine ⟨l, ?_⟩
      rw [trimSuffix_slash_data baseURL h, ← hl]
      simp
  · intro hnot hp
    cases h : hasPrefix candidate "/"
    · have hp2 : trimPrefix candidate "/" = candidate := by simp [trimPrefix, h]
      rw [hp2] at hp
      have := (hasPrefix_iff candidate "/").mpr hp
      simp [h] at this
    · apply hnot
      obtain ⟨l, hl⟩ := hp
      refine ⟨l, ?_⟩
      rw [trimPrefix_slash_data candidate h, ← hl]
      simp

/-- Witness of the amended C7 at `("http://h/", "/admin")`. -/
theorem requestURL_join_witness :
    ¬ ['/', '/'] <:+ "http://h/".data ∧ ¬ ['/', '/'] <+: "/admin".data ∧
    ∃ b p : String, requestURL "http://h/" "/admin" = b ++ "/" ++ p ∧
      ("http://h/".data = b.data ++ ['/'] ∨
        ("http://h/" = b ∧ ¬ ['/'] <:+ "http://h/".data)) ∧
      ("/admin".data = '/' :: p.data ∨ ("/admin" = p ∧ ¬ ['/'] <+: "/admin".data)) ∧
      (¬ ['/', '/'] <:+ "http://h/".data → ¬ ['/'] <:+ b.data) ∧
      (¬ ['/', '/'] <+: "/admin".data → ¬ ['/'] <+: p.data) :=
  ⟨by decide, by decide, (requestURL_join "http://h/" "/admin").1⟩

/-! ## Wordlist loading: theorems -/

theorem trimSpace_decomp (s : String) :
    ∃ pre suf : List Char, s.data = pre ++ (trimSpace s).data ++ suf ∧
      (∀ c ∈ pre, isSpace c = true) ∧ (∀ c ∈ suf, isSpace c = true) := by
  refine ⟨s.data.takeWhile isSpace,
    (((s.data.dropWhile isSpace).reverse).takeWhile isSpace).reverse, ?_, ?_, ?_⟩
  · have h1 := List.takeWhile_append_dropWhile isSpace s.data
    have h2 := List.takeWhile_append_dropWhile isSpace (s.data.dropWhile isSpace).reverse
    have h3 : s.data.dropWhile isSpace =
        ((s.data.dropWhile isSpace).reverse.dropWhile isSpace).reverse ++
          ((s.data.dropWhile isSpace).reverse.takeWhile isSpace).reverse := by
      rw [← List.reverse_append, h2, List.reverse_reverse]
    unfold trimSpace
    simp only [List.append_assoc]
    rw [← h3, h1]
  · intro c hc
    exact List.mem_takeWhile_imp hc
  · intro c hc
    exact List.mem_takeWhile_imp (List.mem_reverse.mp hc)

theorem trimSpace_head (s : String) (ch : Char)
    (h : (trimSpace s).data.head? = some ch) : isSpace ch = false := by
  have hpre : (trimSpace s).data <+: s.data.dropWhile isSpace :=
    List.rdropWhile_prefix isSpace (s.data.dropWhile isSpace)
  obtain ⟨rest, hrest⟩ := hpre
  have hnot := List.head?_dropWhile_not isSpace s.data
  cases ht : (trimSpace s).data with
  | nil => rw [ht] at h; simp at h
  | cons t ts =>
    rw [ht] at h hrest
    simp only [List.head?_cons, Option.some.injEq] at h
    rw [← hrest] at hnot
    simp only [List.cons_append, List.head?_cons] at hnot
    rw [← h]
    exact hnot

theorem trimSpace_last (s : String) (ch : Char)
    (h : (trimSpace s).data.getLast? = some ch) : isSpace ch = false := by
  unfold trimSpace at h
  simp only [List.getLast?_reverse] at h
  have hnot := List.head?_dropWhile_not isSpace (s.data.dropWhile isSpace).reverse
  rw [h] at hnot
  exact hnot

theorem trimSpace_blank (s : String) (h : ∀ c ∈ s.data, isSpace c = true) :
    trimSpace s = "" := by
  have : s.data.dropWhile isSpace = [] := List.dropWhile_eq_nil_iff.mpr h
  unfold trimSpace
  rw [this]
  rfl

theorem scanLoop_eq (lines : List String) :
    ∀ paths, scanLoop lines paths =
      paths ++ (lines.map trimSpace).filter (fun line => line ≠ "") := by
  induction lines with
  | nil => intro paths; simp [scanLoop]
  | cons text rest ih =>
    intro paths
    by_cases h : trimSpace text = ""
    · simp [scanLoop, h, ih]
    · simp [scanLoop, h, ih]

/-- C8: for every sequence of input lines read without a scanner error, the
candidate list built by `main` is the sequence of the lines each trimmed of its
leading and trailing white space (the line is a run of white space, the trimmed
line, a run of white space), without those that are empty after trimming, in
input order; every candidate is non-empty and neither begins nor ends with
white space; an input of blank lines only yields no candidate. -/
theorem loadWordlist_spec (lines : List String) :
    loadWordlist lines none =
      Except.ok ((lines.map trimSpace).filter (fun line => line ≠ "")) ∧
    (∀ text ∈ lines, ∃ pre suf : List Char,
      text.data = pre ++ (trimSpace text).data ++ suf ∧
      (∀ c ∈ pre, isSpace c = true) ∧ (∀ c ∈ suf, isSpace c = true)) ∧
    (∀ cand ∈ scanLoop lines [], cand ≠ "" ∧
      (∀ ch, cand.data.head? = some ch → isSpace ch = false) ∧
      (∀ ch, cand.data.getLast? = some ch → isSpace ch = false)) ∧
    ((∀ text ∈ lines, ∀ c ∈ text.data, isSpace c = true) →
      loadWordlist lines none = Except.ok []) := by
  have hload : loadWordlist lines none =
      Except.ok ((lines.map trimSpace).filter (fun line => line ≠ "")) := by
    simp [loadWordlist, scanLoop_eq]
  refine ⟨hload, fun text _ => trimSpace_decomp text, ?_, ?_⟩
  · intro cand hcand
    rw [scanLoop_eq] at hcand
    simp only [List.nil_append, List.mem_filter, List.mem_map, decide_eq_true_eq] at hcand
    obtain ⟨⟨text, _, rfl⟩, hne⟩ := hcand
    exact ⟨hne, trimSpace_head text, trimSpace_last text⟩
  · intro hblank
    rw [hload]
    congr 1
    rw [List.filter_eq_nil_iff]
    intro line hline
    simp only [List.mem_map] at hline
    obtain ⟨text, htext, rfl⟩ := hline
    simp [trimSpace_blank text (hblank text htext)]

/-- Witness of C8 on a wordlist with padded, empty and blank lines. -/
theorem loadWordlist_spec_witness :
    loadWordlist [" admin ", "", "\t ", "login"] none = Except.ok ["admin", "login"] ∧
    ((∀ text ∈ ["", " \t"], ∀ c ∈ text.data, isSpace c = true) ∧
      loadWordlist ["", " \t"] none = Except.ok []) :=
  ⟨(loadWordlist_spec [" admin ", "", "\t ", "login"]).1,
    by decide, (loadWordlist_spec ["", " \t"]).2.2.2 (by decide)⟩

/-! ## The status tally: theorems -/

theorem wrapInt_of_small (x : Int) (h0 : 0 ≤ x) (h1 : x < 2 ^ 63) : wrapInt x = x := by
  unfold wrapInt
  omega

theorem GoMap.total_set (m : GoMap) (k v : Int) :
    GoMap.total (GoMap.set m k v) = GoMap.total m - GoMap.get m k + v := by
  induction m with
  | nil => simp [GoMap.set, GoMap.total, GoMap.get]
  | cons e m ih =>
    obtain ⟨k', v'⟩ := e
    by_cases hk : k' = k
    · simp only [GoMap.set, GoMap.total, GoMap.get, hk, if_true, List.map_cons, List.sum_cons]
      ring
    · simp only [GoMap.set, GoMap.get, hk, if_false]
      simp only [GoMap.total, List.map_cons, List.sum_cons] at ih ⊢
      rw [ih]
      ring

theorem GoMap.get_set_self (m : GoMap) (k v : Int) :
    GoMap.get (GoMap.set m k v) k = v := by
  induction m with
  | nil => simp [GoMap.set, GoMap.get]
  | cons e m ih =>
    obtain ⟨k', v'⟩ := e
    by_cases hk : k' = k
    · simp [GoMap.set, GoMap.get, hk]
    · simp [GoMap.set, GoMap.get, hk, ih]

theorem GoMap.set_nonneg (m : GoMap) (k v : Int) (hv : 0 ≤ v)
    (hm : ∀ e ∈ m, 0 ≤ e.2) : ∀ e ∈ GoMap.set m k v, 0 ≤ e.2 := by
  induction m with
  | nil =>
    intro e he
    simp only [GoMap.set, List.mem_singleton] at he
    rw [he]; exact hv
  | cons e0 m ih =>
    obtain ⟨k', v'⟩ := e0
    intro e he
    by_cases hk : k' = k
    · simp only [GoMap.set, hk, if_true, List.mem_cons] at he
      rcases he with he | he
      · rw [he]; exact hv
      · exact hm e (List.mem_cons_of_mem _ he)
    · simp only [GoMap.set, hk, if_false, List.mem_cons] at he
      rcases he with he | he
      · rw [he]; exact hm (k', v') (List.mem_cons_self _ _)
      · exact ih (fun e he => hm e (List.mem_cons_of_mem _ he)) e he

theorem GoMap.get_bounds (m : GoMap) (k : Int) (hm : ∀ e ∈ m, 0 ≤ e.2) :
    0 ≤ GoMap.get m k ∧ GoMap.get m k ≤ GoMap.total m := by
  induction m with
  | nil => simp [GoMap.get, GoMap.total]
  | cons e m ih =>
    obtain ⟨k', v'⟩ := e
    have hv : 0 ≤ v' := hm (k', v') (List.mem_cons_self _ _)
    have ih2 := ih (fun e he => hm e (List.mem_cons_of_mem _ he))
    have htot : 0 ≤ GoMap.total m := le_trans ih2.1 ih2.2
    simp only [GoMap.total, List.map_cons, List.sum_cons] at htot ⊢
    simp only [GoMap.total] at ih2
    by_cases hk : k' = k
    · simp only [GoMap.get, hk, if_true]
      omega
    · simp only [GoMap.get, hk, if_false]
      omega

theorem workerLoop_tally (paint : ColorAttr → String → String) (quiet : Bool)
    (outcomes : List (String × Except String Int)) :
    ∀ (st : WorkerState) (n : Nat), (∀ e ∈ st.statusCount, 0 ≤ e.2) →
      GoMap.total st.statusCount = n → n + outcomes.length < 2 ^ 63 →
      GoMap.total (workerLoop paint quiet outcomes st).statusCount =
        ((n + (outcomes.filter (fun o => isStatus o.2)).length : Nat) : Int) := by
  induction outcomes with
  | nil => intro st n _ ht _; simp [workerLoop, ht]
  | cons o rest ih =>
    obtain ⟨p, r⟩ := o
    intro st n hnn ht hlen
    simp only [List.length_cons] at hlen
    cases r with
    | error err =>
      simp only [workerLoop, workerBody, isStatus, List.filter_cons, Bool.false_eq_true,
        if_false]
      exact ih st n hnn ht (by omega)
    | ok status =>
      have hb := GoMap.get_bounds st.statusCount status hnn
      have hw : wrapInt (GoMap.get st.statusCount status + 1) =
          GoMap.get st.statusCount status + 1 := by
        apply wrapInt_of_small
        · omega
        · have : (n : Int) + ((rest.length : Int) + 1) < 2 ^ 63 := by exact_mod_cast hlen
          omega
      have hnn1 : ∀ e ∈ GoMap.incr st.statusCount status, 0 ≤ e.2 := by
        unfold GoMap.incr
        rw [hw]
        exact GoMap.set_nonneg _ _ _ (by omega) hnn
      have ht1 : GoMap.total (GoMap.incr st.statusCount status) = ((n + 1 : Nat) : Int) := by
        unfold GoMap.incr
        rw [hw, GoMap.total_set, ht]
        push_cast
        ring
      have key : ∀ st1 : WorkerState, st1.statusCount = GoMap.incr st.statusCount status →
          GoMap.total (workerLoop paint quiet rest st1).statusCount =
            ((n + (List.filter (fun o => isStatus o.2)
              ((p, (Except.ok status : Except String Int)) :: rest)).length : Nat) : Int) := by
        intro st1 h1
        rw [ih st1 (n + 1) (by rw [h1]; exact hnn1) (by rw [h1]; exact ht1) (by omega)]
        simp only [List.filter_cons, isStatus, if_true, List.length_cons]
        congr 1
        omega
      simp only [workerLoop, workerBody]
      split
      · split
        · exact key _ rfl
        · exact key _ rfl
      · exact key _ rfl

/-- C1: for every sequence of `K` probe outcomes (`K` is the length of a Go
slice, so below `2^63`) processed by the worker loop from the empty tally, the
sum of the counts in `statusCount` at the end is the number of outcomes that
carry a status code, and this number is `K` minus the number of failed outcomes. -/
theorem tally_correct (paint : ColorAttr → String → String) (quiet : Bool)
    (outcomes : List (String × Except String Int)) (hK : outcomes.length < 2 ^ 63) :
    GoMap.total (workerLoop paint quiet outcomes WorkerState.init).statusCount =
      ((outcomes.filter (fun o => isStatus o.2)).length : Int) ∧
    (outcomes.filter (fun o => isStatus o.2)).length =
      outcomes.length - (outcomes.filter (fun o => !isStatus o.2)).length ∧
    (outcomes.filter (fun o => !isStatus o.2)).length ≤ outcomes.length := by
  refine ⟨?_, ?_, List.length_filter_le _ _⟩
  · have h := workerLoop_tally paint quiet outcomes WorkerState.init 0
      (by simp [WorkerState.init]) (by simp [WorkerState.init, GoMap.total]) (by omega)
    simpa using h
  · have hsum : ∀ l : List (String × Except String Int),
        (l.filter (fun o => isStatus o.2)).length +
          (l.filter (fun o => !isStatus o.2)).length = l.length := by
      intro l
      induction l with
      | nil => simp
      | cons o l ih =>
        cases ho : isStatus o.2 <;> simp [List.filter_cons, ho] <;> omega
    have := hsum outcomes
    omega

/-- Witness of C1 on four outcomes: three status codes, one failure. -/
theorem tally_correct_witness :
    GoMap.total (workerLoop (fun _ s => s) false
        [("a", Except.ok 200), ("b", Except.error "refused"), ("c", Except.ok 404),
          ("d", Except.ok 200)] WorkerState.init).statusCount = ((3 : Nat) : Int) ∧
      3 = 4 - 1 ∧ 1 ≤ 4 :=
  tally_correct (fun _ s => s) false
    [("a", Except.ok 200), ("b", Except.error "refused"), ("c", Except.ok 404),
      ("d", Except.ok 200)] (by decide)

/-! ## Quiet mode and failed probes: theorems -/

theorem workerLoop_statusCount_congr (paint : ColorAttr → String → String) (q1 q2 : Bool)
    (outcomes : List (String × Except String Int)) :
    ∀ st1 st2 : WorkerState, st1.statusCount = st2.statusCount →
      (workerLoop paint q1 outcomes st1).statusCount =
        (workerLoop paint q2 outcomes st2).statusCount := by
  induction outcomes with
  | nil => intro st1 st2 h; simpa [workerLoop] using h
  | cons o rest ih =>
    obtain ⟨p, r⟩ := o
    intro st1 st2 h
    simp only [workerLoop]
    apply ih
    cases r with
    | error err => simpa [workerBody] using h
    | ok status =>
      simp only [workerBody]
      repeat' split
      all_goals simp [h]

theorem workerLoop_quiet_results (paint : ColorAttr → String → String)
    (outcomes : List (String × Except String Int)) :
    ∀ st : WorkerState, (workerLoop paint true outcomes st).results =
      st.results ++ (outcomes.filter (fun o => isStatus200 o.2)).map
        (fun o => colorStatus paint o.1 200) := by
  induction outcomes with
  | nil => intro st; simp [workerLoop]
  | cons o rest ih =>
    obtain ⟨p, r⟩ := o
    intro st
    simp only [workerLoop]
    rw [ih]
    cases r with
    | error err => simp [workerBody, isStatus200]
    | ok status =>
      by_cases h200 : status = 200
      · simp [workerBody, isStatus200, h200]
      · simp [workerBody, isStatus200, h200]

/-- C2: with `quiet = true`, the results sent are exactly the renderings, with
status 200, of the candidates whose outcome is status 200, in order (so every
result sent has status 200 and is the green line `/<p>\t200`); a successful
outcome with another status increments `statusCount` for its code and sends
nothing; and the final `statusCount` equals the one of the run with `quiet = false`. -/
theorem quiet_filter (paint : ColorAttr → String → String)
    (outcomes : List (String × Except String Int)) :
    (workerLoop paint true outcomes WorkerState.init).results =
      (outcomes.filter (fun o => isStatus200 o.2)).map (fun o => colorStatus paint o.1 200) ∧
    (∀ r ∈ (workerLoop paint true outcomes WorkerState.init).results,
      ∃ p, (p, Except.ok 200) ∈ outcomes ∧ r = colorStatus paint p 200 ∧
        r = paint ColorAttr.FgGreen ("/" ++ p ++ "\t" ++ "200")) ∧
    (∀ (st : WorkerState) (p : String) (status : Int), status ≠ 200 →
      workerBody paint true st p (Except.ok status) =
        { statusCount := GoMap.incr st.statusCount status, results := st.results } ∧
      GoMap.get (GoMap.incr st.statusCount status) status =
        wrapInt (GoMap.get st.statusCount status + 1)) ∧
    (workerLoop paint true outcomes WorkerState.init).statusCount =
      (workerLoop paint false outcomes WorkerState.init).statusCount := by
  have hres := workerLoop_quiet_results paint outcomes WorkerState.init
  simp only [WorkerState.init, List.nil_append] at hres
  refine ⟨hres, ?_, ?_, workerLoop_statusCount_congr paint true false outcomes _ _ rfl⟩
  · intro r hr
    rw [WorkerState.init, hres] at hr
    simp only [List.mem_map, List.mem_filter] at hr
    obtain ⟨⟨p, o⟩, ⟨hmem, h200⟩, rfl⟩ := hr
    cases o with
    | error err => simp [isStatus200] at h200
    | ok status =>
      simp only [isStatus200, beq_iff_eq] at h200
      subst h200
      refine ⟨p, hmem, rfl, ?_⟩
      have h200 : toString (200 : Int) = "200" := by decide
      simp only [colorStatus, if_true, h200]
  · intro st p status hne
    refine ⟨by simp [workerBody, hne], ?_⟩
    unfold GoMap.incr
    exact GoMap.get_set_self _ _ _

/-- Witness of C2: a quiet run over outcomes 200, failure, 404, 200. -/
theorem quiet_filter_witness :
    (workerLoop (fun _ s => s) true
      [("a", Except.ok 200), ("b", Except.error "refused"), ("c", Except.ok 404),
        ("d", Except.ok 200)] WorkerState.init).results = ["/a\t200", "/d\t200"] ∧
    (workerLoop (fun _ s => s) true
      [("a", Except.ok 200), ("b", Except.error "refused"), ("c", Except.ok 404),
        ("d", Except.ok 200)] WorkerState.init).statusCount = [(200, 2), (404, 1)] :=
  ⟨(quiet_filter (fun _ s => s)
      [("a", Except.ok 200), ("b", Except.error "refused"), ("c", Except.ok 404),
        ("d", Except.ok 200)]).1, rfl⟩

/-- C3: when the call `checkPath(finalURL, p)` returns an error (which it does
exactly when the request itself fails), the worker's processing of `p` leaves
`statusCount` and the results sent unchanged, in quiet and in non-quiet mode,
and the loop goes on with the next candidate. -/
theorem failed_probe_dropped (paint : ColorAttr → String → String)
    (httpGet : String → Except String Int) (finalURL p : String) (err : String)
    (h : checkPath httpGet finalURL p = Except.error err) :
    httpGet (requestURL finalURL p) = Except.error err ∧
    ∀ (quiet : Bool) (st : WorkerState),
      workerBody paint quiet st p (checkPath httpGet finalURL p) = st ∧
      (workerBody paint quiet st p (checkPath httpGet finalURL p)).statusCount =
        st.statusCount ∧
      (workerBody paint quiet st p (checkPath httpGet finalURL p)).results = st.results ∧
      ∀ rest, workerLoop paint quiet ((p, checkPath httpGet finalURL p) :: rest) st =
        workerLoop paint quiet rest st := by
  constructor
  · unfold checkPath at h
    cases hg : httpGet (requestURL finalURL p) with
    | error e => simp [hg] at h; rw [h]
    | ok c => simp [hg] at h
  · intro quiet st
    have hb : workerBody paint quiet st p (checkPath httpGet finalURL p) = st := by
      rw [h]; rfl
    refine ⟨hb, by rw [hb], by rw [hb], ?_⟩
    intro rest
    simp only [workerLoop, hb]

/-- Witness of C3: every request is refused. -/
theorem failed_probe_dropped_witness :
    (fun _ => Except.error "refused" : String → Except String Int)
        (requestURL "http://h" "admin") = Except.error "refused" ∧
    ∀ (quiet : Bool) (st : WorkerState),
      workerBody (fun _ s => s) quiet st "admin"
          (checkPath (fun _ => Except.error "refused") "http://h" "admin") = st ∧
      (workerBody (fun _ s => s) quiet st "admin"
          (checkPath (fun _ => Except.error "refused") "http://h" "admin")).statusCount =
        st.statusCount ∧
      (workerBody (fun _ s => s) quiet st "admin"
          (checkPath (fun _ => Except.error "refused") "http://h" "admin")).results =
        st.results ∧
      ∀ rest, workerLoop (fun _ s => s) quiet
          (("admin", checkPath (fun _ => Except.error "refused") "http://h" "admin") :: rest)
          st = workerLoop (fun _ s => s) quiet rest st :=
  failed_probe_dropped (fun _ s => s) (fun _ => Except.error "refused") "http://h" "admin"
    "refused" rfl

/-! ## The worker pool: theorems -/

theorem getElem?_set_decomp {α : Type} (l : List α) :
    ∀ (i : Nat) (w : α), l[i]? = some w → ∀ w1 : α,
      ∃ l1 l2, l = l1 ++ w :: l2 ∧ l.set i w1 = l1 ++ w1 :: l2 := by
  induction l with
  | nil => intro i w h; simp at h
  | cons x l ih =>
    intro i w h w1
    cases i with
    | zero =>
      simp at h
      exact ⟨[], l, by simp [h], by simp⟩
    | succ i =>
      simp at h
      obtain ⟨l1, l2, h1, h2⟩ := ih i w h w1
      exact ⟨x :: l1, l2, by simp [h1], by simp [h2]⟩

/-- Every step is a step of `main` alone, or moves one worker, possibly
together with `main` (the hand-over of a candidate). -/
theorem step_cases (paint : ColorAttr → String → String) (quiet : Bool)
    (s s1 : PoolState) (a : Action) (h : step paint quiet s a = some s1) :
    (∃ p rest l1 l2, s.mainPC = MainPC.feeding (p :: rest) ∧
      s.workers = l1 ++ WorkerPC.receiving :: l2 ∧
      s1 = { s with mainPC := MainPC.feeding rest
                    workers := l1 ++ WorkerPC.probing p :: l2 }) ∨
    (s.mainPC = MainPC.feeding [] ∧ s1 = { s with mainPC := MainPC.waiting }) ∨
    (∃ p outcome l1 l2, s.workers = l1 ++ WorkerPC.probing p :: l2 ∧
      s1 = { s with probes := s.probes ++ [p]
                    workers := l1 ++ afterProbe p outcome :: l2 }) ∨
    (∃ p status l1 l2, s.workers = l1 ++ WorkerPC.tallying p status :: l2 ∧
      s1 = { s with statusCount := GoMap.incr s.statusCount status
                    workers := l1 ++ afterTally paint quiet p status :: l2 }) ∨
    (∃ r l1 l2, s.workers = l1 ++ WorkerPC.sending r :: l2 ∧
      s1 = { s with printed := s.printed ++ [r]
                    workers := l1 ++ WorkerPC.receiving :: l2 }) ∨
    (∃ l1 l2, (∀ rest, s.mainPC ≠ MainPC.feeding rest) ∧
      s.workers = l1 ++ WorkerPC.receiving :: l2 ∧
      s1 = { s with workers := l1 ++ WorkerPC.done :: l2 }) ∨
    (s.mainPC = MainPC.waiting ∧ (∀ w ∈ s.workers, w = WorkerPC.done) ∧
      s1 = { s with mainPC := MainPC.finished }) := by
  cases a with
  | feed i =>
    simp only [step] at h
    split at h
    · rename_i p rest hm hw
      simp only [Option.some.injEq] at h
      obtain ⟨l1, l2, h1, h2⟩ := getElem?_set_decomp _ i _ hw (WorkerPC.probing p)
      left
      exact ⟨p, rest, l1, l2, hm, h1, by rw [← h, h2]⟩
    · simp at h
  | closePaths =>
    simp only [step] at h
    split at h
    · rename_i hm
      simp only [Option.some.injEq] at h
      right; left
      exact ⟨hm, h.symm⟩
    · simp at h
  | probe i outcome =>
    simp only [step] at h
    split at h
    · rename_i p hw
      simp only [Option.some.injEq] at h
      obtain ⟨l1, l2, h1, h2⟩ := getElem?_set_decomp _ i _ hw (afterProbe p outcome)
      right; right; left
      exact ⟨p, outcome, l1, l2, h1, by rw [← h, h2]⟩
    · simp at h
  | tally i =>
    simp only [step] at h
    split at h
    · rename_i p status hw
      simp only [Option.some.injEq] at h
      obtain ⟨l1, l2, h1, h2⟩ :=
        getElem?_set_decomp _ i _ hw (afterTally paint quiet p status)
      right; right; right; left
      exact ⟨p, status, l1, l2, h1, by rw [← h, h2]⟩
    · simp at h
  | deliver i =>
    simp only [step] at h
    split at h
    · rename_i r hw
      simp only [Option.some.injEq] at h
      obtain ⟨l1, l2, h1, h2⟩ := getElem?_set_decomp _ i _ hw WorkerPC.receiving
      right; right; right; right; left
      exact ⟨r, l1, l2, h1, by rw [← h, h2]⟩
    · simp at h
  | exit i =>
    simp only [step] at h
    split at h
    · simp at h
    · rename_i hw hm
      simp only [Option.some.injEq] at h
      obtain ⟨l1, l2, h1, h2⟩ := getElem?_set_decomp _ i _ hw WorkerPC.done
      right; right; right; right; right; left
      refine ⟨l1, l2, ?_, h1, by rw [← h, h2]⟩
      intro rest hrest
      exact hm rest hrest
    · simp at h
  | finish =>
    simp only [step] at h
    split at h
    · rename_i hm
      split at h
      · rename_i hall
        simp only [Option.some.injEq] at h
        right; right; right; right; right; right
        refine ⟨hm, ?_, h.symm⟩
        intro w hw
        have := List.all_eq_true.mp hall w hw
        cases w <;> simp_all [WorkerPC.isDone]
      · simp at h
    · simp at h

theorem inflight_append_cons (l1 l2 : List WorkerPC) (w : WorkerPC) :
    inflight (l1 ++ w :: l2) = inflight l1 ++ inflight [w] ++ inflight l2 := by
  simp [inflight, List.filterMap_append, List.filterMap_cons]
  cases w <;> simp

theorem inflight_afterProbe (p : String) (outcome : Except String Int) :
    inflight [afterProbe p outcome] = [] := by
  cases outcome <;> rfl

theorem inflight_afterTally (paint : ColorAttr → String → String) (quiet : Bool)
    (p : String) (status : Int) : inflight [afterTally paint quiet p status] = [] := by
  unfold afterTally
  cases quiet <;> by_cases h : status = 200 <;> simp [h, inflight]

theorem afterProbe_ne_done (p : String) (outcome : Except String Int) :
    afterProbe p outcome ≠ WorkerPC.done := by
  cases outcome <;> simp [afterProbe]

theorem afterTally_ne_done (paint : ColorAttr → String → String) (quiet : Bool)
    (p : String) (status : Int) : afterTally paint quiet p status ≠ WorkerPC.done := by
  unfold afterTally
  cases quiet <;> by_cases h : status = 200 <;> simp [h]

theorem weight_afterProbe (p : String) (outcome : Except String Int) :
    (afterProbe p outcome).weight ≤ 3 := by
  cases outcome <;> simp [afterProbe, WorkerPC.weight]

theorem weight_afterTally (paint : ColorAttr → String → String) (quiet : Bool)
    (p : String) (status : Int) : (afterTally paint quiet p status).weight ≤ 2 := by
  unfold afterTally
  cases quiet <;> by_cases h : status = 200 <;> simp [h, WorkerPC.weight]

theorem PoolInv.init (W : Nat) (paths : List String) :
    PoolInv W paths (PoolState.init W paths) := by
  have hin : ∀ n, inflight (List.replicate n WorkerPC.receiving) = [] := by
    intro n
    induction n with
    | zero => rfl
    | succ n ih => simp [List.replicate_succ, inflight]
  refine ⟨?_, ?_, ?_, ?_⟩
  · simp [PoolState.init, hin, MainPC.remaining]
  · simp [PoolState.init]
  · intro rest _ w hw
    simp only [PoolState.init, List.mem_replicate] at hw
    rw [hw.2]
    simp
  · intro h
    simp [PoolState.init] at h

theorem PoolInv.step (paint : ColorAttr → String → String) (quiet : Bool)
    (W : Nat) (paths : List String) (s s1 : PoolState) (a : Action)
    (hinv : PoolInv W paths s) (h : step paint quiet s a = some s1) :
    PoolInv W paths s1 := by
  obtain ⟨hperm, hsize, halive, hjoined⟩ := hinv
  rcases step_cases paint quiet s s1 a h with
    ⟨p, rest, l1, l2, hm, hw, rfl⟩ | ⟨hm, rfl⟩ | ⟨p, outcome, l1, l2, hw, rfl⟩ |
    ⟨p, status, l1, l2, hw, rfl⟩ | ⟨r, l1, l2, hw, rfl⟩ | ⟨l1, l2, hm, hw, rfl⟩ |
    ⟨hm, hall, rfl⟩
  · rw [hm, hw, inflight_append_cons] at hperm
    rw [hw] at hsize
    have hal := halive (p :: rest) hm
    rw [hw] at hal
    refine ⟨?_, ?_, ?_, ?_⟩
    · have e1 : inflight [WorkerPC.receiving] = [] := rfl
      have e2 : inflight [WorkerPC.probing p] = [p] := rfl
      rw [e1] at hperm
      simp only [inflight_append_cons, MainPC.remaining, e2, List.append_nil] at hperm ⊢
      refine List.Perm.trans ?_ hperm
      rw [← Multiset.coe_eq_coe]
      simp only [← Multiset.coe_add, ← Multiset.cons_coe, ← Multiset.singleton_add,
        Multiset.coe_nil, add_zero]
      abel
    · simpa using hsize
    · intro _ _ w hmem
      simp only [List.mem_append, List.mem_cons] at hmem
      rcases hmem with hmem | hmem | hmem
      · exact hal w (by simp [hmem])
      · rw [hmem]; simp
      · exact hal w (by simp [hmem])
    · intro hfin
      simp at hfin
  · rw [hm] at hperm
    refine ⟨?_, hsize, ?_, ?_⟩
    · simpa [MainPC.remaining] using hperm
    · intro rest hrest
      simp at hrest
    · intro hfin
      simp at hfin
  · rw [hw, inflight_append_cons] at hperm
    rw [hw] at hsize
    refine ⟨?_, ?_, ?_, ?_⟩
    · have e2 : inflight [WorkerPC.probing p] = [p] := rfl
      rw [e2] at hperm
      simp only [inflight_append_cons, inflight_afterProbe, List.append_nil]
      refine List.Perm.trans ?_ hperm
      rw [← Multiset.coe_eq_coe]
      simp only [← Multiset.coe_add, ← Multiset.cons_coe, ← Multiset.singleton_add,
        Multiset.coe_nil, add_zero]
      abel
    · simpa using hsize
    · intro rest hrest w hmem
      have hal := halive rest hrest
      rw [hw] at hal
      simp only [List.mem_append, List.mem_cons] at hmem
      rcases hmem with hmem | hmem | hmem
      · exact hal w (by simp [hmem])
      · rw [hmem]; exact afterProbe_ne_done p outcome
      · exact hal w (by simp [hmem])
    · intro hfin
      have := hjoined hfin (WorkerPC.probing p) (by rw [hw]; simp)
      simp at this
  · rw [hw, inflight_append_cons] at hperm
    rw [hw] at hsize
    refine ⟨?_, ?_, ?_, ?_⟩
    · simp only [inflight_append_cons, inflight_afterTally, List.append_nil]
      simpa [inflight] using hperm
    · simpa using hsize
    · intro rest hrest w hmem
      have hal := halive rest hrest
      rw [hw] at hal
      simp only [List.mem_append, List.mem_cons] at hmem
      rcases hmem with hmem | hmem | hmem
      · exact hal w (by simp [hmem])
      · rw [hmem]; exact afterTally_ne_done paint quiet p status
      · exact hal w (by simp [hmem])
    · intro hfin
      have := hjoined hfin (WorkerPC.tallying p status) (by rw [hw]; simp)
      simp at this
  · rw [hw, inflight_append_cons] at hperm
    rw [hw] at hsize
    refine ⟨?_, ?_, ?_, ?_⟩
    · simp only [inflight_append_cons]
      simpa [inflight] using hperm
    · simpa using hsize
    · intro rest hrest w hmem
      have hal := halive rest hrest
      rw [hw] at hal
      simp only [List.mem_append, List.mem_cons] at hmem
      rcases hmem with hmem | hmem | hmem
      · exact hal w (by simp [hmem])
      · rw [hmem]; simp
      · exact hal w (by simp [hmem])
    · intro hfin
      have := hjoined hfin (WorkerPC.sending r) (by rw [hw]; simp)
      simp at this
  · rw [hw, inflight_append_cons] at hperm
    rw [hw] at hsize
    refine ⟨?_, ?_, ?_, ?_⟩
    · simp only [inflight_append_cons]
      simpa [inflight] using hperm
    · simpa using hsize
    · intro rest hrest
      exact absurd hrest (hm rest)
    · intro hfin
      have := hjoined hfin WorkerPC.receiving (by rw [hw]; simp)
      simp at this
  · rw [hm] at hperm
    refine ⟨?_, hsize, ?_, ?_⟩
    · simpa [MainPC.remaining] using hperm
    · intro rest hrest
      simp at hrest
    · intro _
      exact hall

theorem fuel_step (paint : ColorAttr → String → String) (quiet : Bool)
    (s s1 : PoolState) (a : Action) (h : step paint quiet s a = some s1) :
    s1.fuel + 1 ≤ s.fuel := by
  rcases step_cases paint quiet s s1 a h with
    ⟨p, rest, l1, l2, hm, hw, rfl⟩ | ⟨hm, rfl⟩ | ⟨p, outcome, l1, l2, hw, rfl⟩ |
    ⟨p, status, l1, l2, hw, rfl⟩ | ⟨r, l1, l2, hw, rfl⟩ | ⟨l1, l2, hm, hw, rfl⟩ |
    ⟨hm, hall, rfl⟩
  · simp only [PoolState.fuel, hm, hw, MainPC.weight, List.map_append, List.map_cons,
      List.sum_append, List.sum_cons, WorkerPC.weight, List.length_cons]
    omega
  · simp only [PoolState.fuel, hm, MainPC.weight, List.length_nil]
    omega
  · have := weight_afterProbe p outcome
    have e : (WorkerPC.probing p).weight = 4 := rfl
    simp only [PoolState.fuel, hw, List.map_append, List.map_cons,
      List.sum_append, List.sum_cons, e]
    omega
  · have := weight_afterTally paint quiet p status
    have e : (WorkerPC.tallying p status).weight = 3 := rfl
    simp only [PoolState.fuel, hw, List.map_append, List.map_cons,
      List.sum_append, List.sum_cons, e]
    omega
  · simp only [PoolState.fuel, hw, List.map_append, List.map_cons,
      List.sum_append, List.sum_cons, WorkerPC.weight]
    omega
  · simp only [PoolState.fuel, hw, List.map_append, List.map_cons,
      List.sum_append, List.sum_cons, WorkerPC.weight]
    omega
  · simp only [PoolState.fuel, hm, MainPC.weight]
    omega

/-- While `main` has not closed `results`, some step is enabled, provided
there is at least one worker. -/
theorem progress (paint : ColorAttr → String → String) (quiet : Bool)
    (W : Nat) (paths : List String) (s : PoolState) (hinv : PoolInv W paths s)
    (hW : 1 ≤ W) (hne : s.mainPC ≠ MainPC.finished) :
    ∃ a, (step paint quiet s a).isSome = true := by
  have hactive : ∀ (i : Nat) (w : WorkerPC), s.workers[i]? = some w →
      w ≠ WorkerPC.done → w ≠ WorkerPC.receiving →
      ∃ a, (step paint quiet s a).isSome = true := by
    intro i w hw hd hr
    cases w with
    | receiving => exact absurd rfl hr
    | done => exact absurd rfl hd
    | probing p => exact ⟨Action.probe i (Except.error ""), by simp [step, hw]⟩
    | tallying p status => exact ⟨Action.tally i, by simp [step, hw]⟩
    | sending r => exact ⟨Action.deliver i, by simp [step, hw]⟩
  cases hm : s.mainPC with
  | finished => exact absurd hm hne
  | feeding rest =>
    have hlen : 0 < s.workers.length := by rw [hinv.size]; exact hW
    have h0 : s.workers[0]? = some (s.workers[0]) := List.getElem?_eq_getElem hlen
    have hnd : s.workers[0] ≠ WorkerPC.done :=
      hinv.alive rest hm _ (List.getElem_mem hlen)
    by_cases hr : s.workers[0] = WorkerPC.receiving
    · rw [hr] at h0
      cases rest with
      | nil => exact ⟨Action.closePaths, by simp [step, hm]⟩
      | cons p rest => exact ⟨Action.feed 0, by simp [step, hm, h0]⟩
    · exact hactive 0 _ h0 hnd hr
  | waiting =>
    by_cases hall : s.workers.all WorkerPC.isDone = true
    · exact ⟨Action.finish, by simp [step, hm, hall]⟩
    · have hex : ∃ w ∈ s.workers, WorkerPC.isDone w = false := by
        by_contra hcon
        apply hall
        rw [List.all_eq_true]
        intro w hw
        by_contra hwd
        exact hcon ⟨w, hw, by simpa using hwd⟩
      obtain ⟨w, hw, hwd⟩ := hex
      obtain ⟨i, hi⟩ := List.mem_iff_getElem?.mp hw
      have hnd : w ≠ WorkerPC.done := by
        intro h
        rw [h] at hwd
        simp [WorkerPC.isDone] at hwd
      by_cases hr : w = WorkerPC.receiving
      · rw [hr] at hi
        exact ⟨Action.exit i, by simp [step, hm, hi]⟩
      · exact hactive i w hi hnd hr

/-- Once `main` has closed `results`, no step is left. -/
theorem finished_terminal (paint : ColorAttr → String → String) (quiet : Bool)
    (W : Nat) (paths : List String) (s : PoolState) (hinv : PoolInv W paths s)
    (hfin : s.mainPC = MainPC.finished) (a : Action) : step paint quiet s a = none := by
  cases h : step paint quiet s a with
  | none => rfl
  | some s1 =>
    exfalso
    have hj := hinv.joined hfin
    rcases step_cases paint quiet s s1 a h with
      ⟨p, rest, l1, l2, hm, hw, _⟩ | ⟨hm, _⟩ | ⟨p, outcome, l1, l2, hw, _⟩ |
      ⟨p, status, l1, l2, hw, _⟩ | ⟨r, l1, l2, hw, _⟩ | ⟨l1, l2, hm, hw, _⟩ |
      ⟨hm, hall, _⟩
    · rw [hfin] at hm; simp at hm
    · rw [hfin] at hm; simp at hm
    · have := hj (WorkerPC.probing p) (by rw [hw]; simp)
      simp at this
    · have := hj (WorkerPC.tallying p status) (by rw [hw]; simp)
      simp at this
    · have := hj (WorkerPC.sending r) (by rw [hw]; simp)
      simp at this
    · have := hj WorkerPC.receiving (by rw [hw]; simp)
      simp at this
    · rw [hfin] at hm; simp at hm

theorem run_inv (paint : ColorAttr → String → String) (quiet : Bool)
    (W : Nat) (paths : List String) (sched : List Action) :
    ∀ s s1 : PoolState, PoolInv W paths s → run paint quiet sched s = some s1 →
      PoolInv W paths s1 ∧ s1.fuel + sched.length ≤ s.fuel := by
  induction sched with
  | nil =>
    intro s s1 hinv h
    simp only [run, Option.some.injEq] at h
    subst h
    exact ⟨hinv, by simp⟩
  | cons a sched ih =>
    intro s s1 hinv h
    simp only [run] at h
    cases hs : step paint quiet s a with
    | none => rw [hs] at h; simp at h
    | some s2 =>
      rw [hs] at h
      obtain ⟨h1, h2⟩ := ih s2 s1 (PoolInv.step paint quiet W paths s s2 a hinv hs) h
      have := fuel_step paint quiet s s2 a hs
      refine ⟨h1, ?_⟩
      simp only [List.length_cons]
      omega

theorem exists_final (paint : ColorAttr → String → String) (quiet : Bool)
    (W : Nat) (paths : List String) (hW : 1 ≤ W) :
    ∀ (n : Nat) (s : PoolState), s.fuel ≤ n → PoolInv W paths s →
      ∃ sched s1, run paint quiet sched s = some s1 ∧ s1.mainPC = MainPC.finished := by
  intro n
  induction n with
  | zero =>
    intro s hn hinv
    by_cases hfin : s.mainPC = MainPC.finished
    · exact ⟨[], s, rfl, hfin⟩
    · obtain ⟨a, ha⟩ := progress paint quiet W paths s hinv hW hfin
      obtain ⟨s2, hs2⟩ := Option.isSome_iff_exists.mp ha
      have := fuel_step paint quiet s s2 a hs2
      omega
  | succ n ih =>
    intro s hn hinv
    by_cases hfin : s.mainPC = MainPC.finished
    · exact ⟨[], s, rfl, hfin⟩
    · obtain ⟨a, ha⟩ := progress paint quiet W paths s hinv hW hfin
      obtain ⟨s2, hs2⟩ := Option.isSome_iff_exists.mp ha
      have hf := fuel_step paint quiet s s2 a hs2
      obtain ⟨sched, s1, hrun, hfin1⟩ :=
        ih s2 (by omega) (PoolInv.step paint quiet W paths s s2 a hinv hs2)
      exact ⟨a :: sched, s1, by simp [run, hs2, hrun], hfin1⟩

theorem inflight_all_done (ws : List WorkerPC) (h : ∀ w ∈ ws, w = WorkerPC.done) :
    inflight ws = [] := by
  induction ws with
  | nil => rfl
  | cons w ws ih =>
    have hw := h w (List.mem_cons_self _ _)
    subst hw
    have := ih (fun w hw => h w (List.mem_cons_of_mem _ hw))
    simpa [inflight] using this

theorem fuel_init (W : Nat) (paths : List String) :
    (PoolState.init W paths).fuel = 4 * paths.length + W + 2 := by
  simp [PoolState.fuel, PoolState.init, MainPC.weight, List.map_replicate,
    List.sum_replicate, WorkerPC.weight]
  omega

/-- C9: for every wordlist of `K` candidates and every worker count `W ≥ 1`,
under every interleaving of `main`, the workers and the printer: an execution
has at most `4 K + W + 2` steps; at every point of it the candidates probed so
far are part of the wordlist, none more often than it occurs there; when no
step is left, `main` and all `W` workers have returned and the probes issued
are a permutation of the wordlist, `K` in number; and an execution to such an
end exists. -/
theorem pool_completeness (paint : ColorAttr → String → String) (quiet : Bool)
    (W : Nat) (paths : List String) (hW : 1 ≤ W) :
    (∀ sched s, run paint quiet sched (PoolState.init W paths) = some s →
      sched.length ≤ 4 * paths.length + W + 2 ∧
      s.probes.Subperm paths ∧
      ((∀ a, step paint quiet s a = none) →
        s.mainPC = MainPC.finished ∧ s.workers.length = W ∧
        (∀ w ∈ s.workers, w = WorkerPC.done) ∧
        s.probes.Perm paths ∧ s.probes.length = paths.length)) ∧
    (∃ sched s, run paint quiet sched (PoolState.init W paths) = some s ∧
      ∀ a, step paint quiet s a = none) := by
  constructor
  · intro sched s hrun
    obtain ⟨hinv, hfuel⟩ :=
      run_inv paint quiet W paths sched _ s (PoolInv.init W paths) hrun
    rw [fuel_init] at hfuel
    refine ⟨by omega, ?_, ?_⟩
    · have hsub : s.probes.Subperm (s.probes ++ inflight s.workers ++ s.mainPC.remaining) := by
        rw [List.append_assoc]
        exact (List.sublist_append_left _ _).subperm
      exact hsub.trans hinv.perm.subperm
    · intro hterm
      have hfin : s.mainPC = MainPC.finished := by
        by_contra hne
        obtain ⟨a, ha⟩ := progress paint quiet W paths s hinv hW hne
        rw [hterm a] at ha
        simp at ha
      have hdone := hinv.joined hfin
      have hperm := hinv.perm
      rw [inflight_all_done _ hdone, hfin] at hperm
      simp only [MainPC.remaining, List.append_nil] at hperm
      exact ⟨hfin, hinv.size, hdone, hperm, hperm.length_eq⟩
  · obtain ⟨sched, s, hrun, hfin⟩ :=
      exists_final paint quiet W paths hW _ (PoolState.init W paths) (le_refl _)
        (PoolInv.init W paths)
    have hinv := (run_inv paint quiet W paths sched _ s (PoolInv.init W paths) hrun).1
    exact ⟨sched, s, hrun, finished_terminal paint quiet W paths s hinv hfin⟩

/-- Witness of C9: two workers, two candidates. -/
theorem pool_completeness_witness :
    1 ≤ 2 ∧
    ((∀ sched s, run (fun _ x => x) false sched (PoolState.init 2 ["admin", "login"]) = some s →
      sched.length ≤ 4 * ["admin", "login"].length + 2 + 2 ∧
      s.probes.Subperm ["admin", "login"] ∧
      ((∀ a, step (fun _ x => x) false s a = none) →
        s.mainPC = MainPC.finished ∧ s.workers.length = 2 ∧
        (∀ w ∈ s.workers, w = WorkerPC.done) ∧
        s.probes.Perm ["admin", "login"] ∧ s.probes.length = ["admin", "login"].length)) ∧
    (∃ sched s, run (fun _ x => x) false sched (PoolState.init 2 ["admin", "login"]) = some s ∧
      ∀ a, step (fun _ x => x) false s a = none)) :=
  ⟨by decide, pool_completeness (fun _ x => x) false 2 ["admin", "login"] (by decide)⟩

end Gobuster
